import Mathlib

/-!
# Verification of the NoGo MCTS agent (`agent.h`)

A shallow embedding of the move-decision logic of the NoGo player:
the two selection-score computations, the search budgets, the playout
loops, the RAVE update, the root-move selection, the configuration
defaults and the node statistics.  `float`/`double` arithmetic is
modelled over the reals, `size_t`/`int` counters over `Nat`/`Int`, and
the board primitives (which live in a separate header) are abstracted
as explicit operation records.
-/

namespace NoGo

/-! ## Selection scores (claim C1) -/

/-- Selection score computed by `MCTSAgent::Node::select_child`:
`(child.rave_wins_ + child.wins_ + std::sqrt(log_visits_ * child.visits_) * 0.25f)
/ (child.rave_visits_ + child.visits_)`, where `log_visits_` is the cached
natural logarithm of the parent's visit count.  Float arithmetic is
modelled over `ℝ`. -/
noncomputable def select_child_score (log_visits rave_wins wins visits rave_visits : ℝ) : ℝ :=
  (rave_wins + wins + Real.sqrt (log_visits * visits) * 0.25) / (rave_visits + visits)

/-- Selection score computed by the second selection implementation,
`Node::getBestChild`: `child->wins / child->visits + 0.25 * sqrt(log2visits / child->visits)`
with `log2visits = log2(visits)` of the parent (classical UCB, base-2 logarithm,
no RAVE terms). -/
noncomputable def getBestChild_score (log2visits wins visits : ℝ) : ℝ :=
  wins / visits + 0.25 * Real.sqrt (log2visits / visits)

/-- The selection-score formula exactly as the specification words it:
`(child.rave_wins + child.wins + 0.25 * sqrt(parent.log_visits * child.visits))
/ (child.rave_visits + child.visits)`. -/
noncomputable def spec_selection_score (parent_log_visits rave_wins wins visits rave_visits : ℝ) : ℝ :=
  (rave_wins + wins + 0.25 * Real.sqrt (parent_log_visits * visits)) / (rave_visits + visits)

/-- C1 (counterexample): not every selection implementation uses the specified
formula.  At a parent with one visit (so `ln = 0` and `log2 = 0`) and a child
with `wins = 1`, `visits = 1` and the RAVE priors `10`/`20`, `Node::getBestChild`
computes `1` while the specified formula gives `11/21`. -/
theorem getBestChild_score_ne_spec :
    getBestChild_score (Real.logb 2 1) 1 1 ≠ spec_selection_score (Real.log 1) 10 1 1 20 := by
  unfold getBestChild_score spec_selection_score
  rw [Real.logb_one, Real.log_one]
  norm_num

/-- C1 (amended): the score computed by `MCTSAgent::Node::select_child` equals the
specified formula `(rave_wins + wins + 0.25 * sqrt(parent.log_visits * visits)) /
(rave_visits + visits)` at every input; the second selection implementation,
`Node::getBestChild`, instead uses classical UCB with a base-2 logarithm. -/
theorem select_child_score_matches_spec (lv a b c d : ℝ) :
    select_child_score lv a b c d = spec_selection_score lv a b c d := by
  unfold select_child_score spec_selection_score
  ring

/-! ## Search budgets (claim C2) -/

/-- Number of loop-body executions of the `for (int i = 0; i < T; i++)` loop of
`player::mcts_action`, with `fuel = T - i`: each executed body counts one playout,
and `brk i` is the end-of-body break test at iteration `i`. -/
def mctsIterGo (brk : Nat → Bool) : Nat → Nat → Nat
  | 0, _ => 0
  | fuel + 1, i => 1 + (if brk i then 0 else mctsIterGo brk fuel (i + 1))

/-- Number of playouts performed by the `player::mcts_action` loop with iteration
budget `T`. -/
def mctsIterCount (T : Nat) (brk : Nat → Bool) : Nat :=
  mctsIterGo brk T 0

/-- The break test of `player::mcts_action`:
`i > 0.2 * T && i % 100 == 0 && now - start_time > time_limit`.  The `double`
product `0.2 * T` is modelled by the exact comparison `5 * i > T`;
`time_exceeded` abstracts the wall-clock comparison at iteration `i`. -/
def mctsBreakCond (T i : Nat) (time_exceeded : Bool) : Bool :=
  decide (5 * i > T) && decide (i % 100 = 0) && time_exceeded

/-- Guard of the `do { ... } while` loop of `MCTSAgent::take_action`:
`++total_counts < 50000 || (hclock::now() - start_time) < threshold_time`,
evaluated after `total_counts` playouts have been performed;
`elapsed_lt_threshold` abstracts the wall-clock comparison. -/
def takeActionLoopCond (total_counts : Nat) (elapsed_lt_threshold : Bool) : Bool :=
  decide (total_counts < 50000) || elapsed_lt_threshold

theorem mctsIterGo_le (brk : Nat → Bool) : ∀ fuel i, mctsIterGo brk fuel i ≤ fuel := by
  intro fuel
  induction fuel with
  | zero => intro i; simp [mctsIterGo]
  | succ n ih =>
      intro i
      unfold mctsIterGo
      cases h : brk i
      · simp only [Bool.false_eq_true, if_false]
        have := ih (i + 1)
        omega
      · simp

/-- C2: the `player::mcts_action` loop performs at most `T` playouts whatever the
wall clock does, and the outer loop of `MCTSAgent::take_action` continues exactly
while the number of playouts performed is below `50000` or the elapsed time is
below the one-second threshold. -/
theorem budget_respected :
    (∀ (T : Nat) (time_exceeded : Nat → Bool),
        mctsIterCount T (fun i => mctsBreakCond T i (time_exceeded i)) ≤ T) ∧
    (∀ (n : Nat) (e : Bool), takeActionLoopCond n e = true ↔ (n < 50000 ∨ e = true)) := by
  constructor
  · intro T f
    exact mctsIterGo_le _ T 0
  · intro n e
    simp [takeActionLoopCond]

/-! ## Configuration: the `time` key (claim C7) -/

/-- Time budget selected by the `player` constructor, as a function of the parsed
configuration map: the member initializer is `int T = 12000, t_limit = 40000;`,
and `if (meta.find("time") != meta.end()) t_limit = int(meta["time"]);`.
The stringly-typed `meta` map is modelled as a partial map from keys to the
numeric values their strings convert to. -/
def player_t_limit (meta : String → Option Int) : Int :=
  match meta "time" with
  | some v => v
  | none => 40000

/-- C7 (counterexample): with the `time` key absent the time budget is `40000`
milliseconds, not the `1000` milliseconds the claim states. -/
theorem time_default_counterexample :
    player_t_limit (fun _ => none) = 40000 ∧ (40000 : Int) ≠ 1000 := by
  constructor
  · rfl
  · decide

/-- C7 (amended): the configuration key `time` sets the time budget in
milliseconds, and when the key is absent the time budget defaults to `40000`
milliseconds. -/
theorem time_key_spec (meta : String → Option Int) (t : Int) :
    (meta "time" = some t → player_t_limit meta = t) ∧
    (meta "time" = none → player_t_limit meta = 40000) := by
  constructor <;> intro h <;> simp [player_t_limit, h]

/-- Witness for `time_key_spec` at a concrete configuration map. -/
theorem time_key_spec_witness :
    player_t_limit (fun _ => some 250) = 250 :=
  (time_key_spec (fun _ => some 250) 250).1 rfl

/-! ## Playouts (claims C3 and C8)

The board primitives live in `board.h`, which is not among the sources; the
search calls them through an abstract operation record, so the theorems hold
for every board implementation. -/

/-- The board operations used by the search.  Sides are `0`/`1` for the
`MCTSAgent` code path (`other = 1 - bw`) and `1`/`2` for the `Node`/`player`
code path (`other = 3 - who`); the sentinel for "no point" is `81`. -/
structure GameOps (B : Type) where
  has_legal_move : B → Nat → Bool
  heuristic_legal_move : B → Nat → Nat × Bool
  place : B → Nat → Nat → B
  get_random_legal_pt : B → Option Nat
  place_pt : B → Nat → B

/-- The simulation loop of `MCTSAgent::take_action`:
`while (board.has_legal_move(1 - cbw)) { cbw = 1 - cbw; cpos = heuristic...;
board.place(cbw, cpos); if (is_two_go) rave[cbw].set(cpos); }` followed by
`winner = cbw`.  `cbw` is the side that made the last move; the RAVE sets are
modelled as a list of `(side, pos)` pairs; `fuel` bounds the number of plies
(every legal move fills an empty point, so 81 plies always suffice).  The
result is `(winner, final board, rave)`. -/
def simLoop {B : Type} (G : GameOps B) :
    Nat → B → Nat → List (Nat × Nat) → Option (Nat × B × List (Nat × Nat))
  | 0, _, _, _ => none
  | fuel + 1, b, cbw, rave =>
    if G.has_legal_move b (1 - cbw) then
      let pm := G.heuristic_legal_move b (1 - cbw)
      simLoop G fuel (G.place b (1 - cbw) pm.1) (1 - cbw)
        (if pm.2 then (1 - cbw, pm.1) :: rave else rave)
    else
      some (cbw, b, rave)

/-- The playout loop of `Node::defaultPolicy`: starting from side `cur_who`
to move, repeatedly draw `get_random_legal_pt`; the sentinel `(-1,-1)`
(modelled as `none`) means the mover is stuck and `3 - cur_who` is returned
as the winner; otherwise the point is placed and the side flips.  The final
board is returned alongside the winner. -/
def defaultPolicyLoop {B : Type} (G : GameOps B) : Nat → B → Nat → Option (Nat × B)
  | 0, _, _ => none
  | fuel + 1, b, cur_who =>
    match G.get_random_legal_pt b with
    | none => some (3 - cur_who, b)
    | some pt => defaultPolicyLoop G fuel (G.place_pt b pt) (3 - cur_who)

theorem simLoop_stuck_side {B : Type} (G : GameOps B) :
    ∀ fuel b cbw rave w bf rv, cbw ≤ 1 →
      simLoop G fuel b cbw rave = some (w, bf, rv) →
      w ≤ 1 ∧ G.has_legal_move bf (1 - w) = false := by
  intro fuel
  induction fuel with
  | zero => intro b cbw rave w bf rv _ h; simp [simLoop] at h
  | succ n ih =>
      intro b cbw rave w bf rv hcbw h
      unfold simLoop at h
      by_cases hl : G.has_legal_move b (1 - cbw) = true
      · rw [if_pos hl] at h
        exact ih _ _ _ w bf rv (Nat.sub_le 1 cbw) h
      · rw [if_neg hl] at h
        simp only [Option.some.injEq, Prod.mk.injEq] at h
        obtain ⟨h1, h2, h3⟩ := h
        subst h1; subst h2
        exact ⟨hcbw, Bool.eq_false_iff.mpr hl⟩

theorem defaultPolicyLoop_stuck_side {B : Type} (G : GameOps B) :
    ∀ fuel b cw w bf, (cw = 1 ∨ cw = 2) →
      defaultPolicyLoop G fuel b cw = some (w, bf) →
      (w = 1 ∨ w = 2) ∧ G.get_random_legal_pt bf = none := by
  intro fuel
  induction fuel with
  | zero => intro b cw w bf _ h; simp [defaultPolicyLoop] at h
  | succ n ih =>
      intro b cw w bf hcw h
      unfold defaultPolicyLoop at h
      cases hg : G.get_random_legal_pt b with
      | none =>
          rw [hg] at h
          simp only [Option.some.injEq, Prod.mk.injEq] at h
          obtain ⟨h1, h2⟩ := h
          subst h1; subst h2
          refine ⟨?_, hg⟩
          rcases hcw with h | h <;> subst h
          · right; rfl
          · left; rfl
      | some pt =>
          rw [hg] at h
          refine ih _ _ w bf ?_ h
          rcases hcw with h' | h' <;> subst h'
          · right; rfl
          · left; rfl

/-- C3: in both playout implementations the loop terminates exactly when the
side to move has no legal move, and the winner returned is the opponent of
that stuck side (the side that made the last legal move): the simulation loop
of `MCTSAgent::take_action` returns `winner = cbw` exactly when
`has_legal_move (1 - cbw)` fails, and `Node::defaultPolicy` returns
`3 - cur_who` exactly when the random-point draw for `cur_who` yields the
sentinel. -/
theorem playout_winner_spec {B : Type} (G : GameOps B) :
    (∀ fuel b cbw rave w bf rv, cbw ≤ 1 →
        simLoop G fuel b cbw rave = some (w, bf, rv) →
        w ≤ 1 ∧ G.has_legal_move bf (1 - w) = false) ∧
    (∀ fuel b cbw rave, G.has_legal_move b (1 - cbw) = false →
        simLoop G (fuel + 1) b cbw rave = some (cbw, b, rave)) ∧
    (∀ fuel b cw w bf, (cw = 1 ∨ cw = 2) →
        defaultPolicyLoop G fuel b cw = some (w, bf) →
        (w = 1 ∨ w = 2) ∧ G.get_random_legal_pt bf = none) ∧
    (∀ fuel b cw, G.get_random_legal_pt b = none →
        defaultPolicyLoop G (fuel + 1) b cw = some (3 - cw, b)) := by
  refine ⟨simLoop_stuck_side G, ?_, defaultPolicyLoop_stuck_side G, ?_⟩
  · intro fuel b cbw rave hl
    unfold simLoop
    rw [hl]
    simp
  · intro fuel b cw hg
    unfold defaultPolicyLoop
    rw [hg]

/-- A concrete board model for witnesses: the board is a countdown of the
remaining legal moves, shared by both sides. -/
def countdownOps : GameOps Nat where
  has_legal_move := fun b _ => decide (0 < b)
  heuristic_legal_move := fun b _ => (b, true)
  place := fun b _ _ => b - 1
  get_random_legal_pt := fun b => if 0 < b then some b else none
  place_pt := fun b _ => b - 1

/-- Witness for `playout_winner_spec`: a two-ply countdown playout started with
side 0 having just moved ends with winner 1 and the stuck side `1 - 1 = 0`
having no legal move. -/
theorem playout_winner_spec_witness :
    (1 : Nat) ≤ 1 ∧ countdownOps.has_legal_move 0 (1 - 1) = false :=
  (playout_winner_spec countdownOps).1 2 1 0 [] 1 0 [(1, 1)] (by decide) (by decide)

/-- The guard of `MCTSAgent::take_action`:
`if (!b.has_legal_move(bw)) return 81;` — the search result is only computed
otherwise. -/
def take_action_no_move {B : Type} (G : GameOps B) (b : B) (bw : Nat)
    (search_result : Nat) : Nat :=
  if G.has_legal_move b bw then search_result else 81

/-- The best-child scan of `player::mcts_action`: starting from
`best_child = nullptr`, replace whenever `child->visits > best_child->visits`;
children are `(pos, visits)` pairs and `none` models the null pointer, which
makes `mcts_action` return the null action. -/
def best_child_by_visits (children : List (Nat × Nat)) : Option (Nat × Nat) :=
  children.foldl
    (fun best c =>
      match best with
      | none => some c
      | some bc => if bc.2 < c.2 then some c else some bc)
    none

/-- Children created by `Node::expand` for the root: one node per legal point
(no other code path creates children); `vis` gives each child's visit count at
the end of the search. -/
def expand_children (points : List Nat) (vis : Nat → Nat) : List (Nat × Nat) :=
  points.map (fun p => (p, vis p))

/-- C8: when the side to move has no legal move, the move-deciding call
returns the null action rather than failing: `MCTSAgent::take_action` returns
the sentinel `81` without searching, and `player::mcts_action` — whose root
has one child per legal point — finds no best child and returns the null
action (`none`). -/
theorem no_legal_move_null_action {B : Type} (G : GameOps B) (b : B) (bw sr : Nat)
    (points : List Nat) (vis : Nat → Nat) :
    (G.has_legal_move b bw = false → take_action_no_move G b bw sr = 81) ∧
    (points = [] → best_child_by_visits (expand_children points vis) = none) := by
  constructor
  · intro h
    simp [take_action_no_move, h]
  · intro h
    subst h
    rfl

/-- Witness for `no_legal_move_null_action`: on an exhausted countdown board
the guard returns the sentinel `81`, and with no legal points the root best
child is the null pointer. -/
theorem no_legal_move_null_action_witness :
    take_action_no_move countdownOps 0 1 55 = 81 ∧
      best_child_by_visits (expand_children [] (fun _ => 0)) = none :=
  ⟨(no_legal_move_null_action countdownOps 0 1 55 [] (fun _ => 0)).1 rfl,
   (no_legal_move_null_action countdownOps 0 1 55 [] (fun _ => 0)).2 rfl⟩

/-! ## Node statistics and the RAVE update (claims C4 and C9) -/

/-- The statistics of a `MCTSAgent::Node`: the side `bw_` that played the move
leading to the node, the move index `pos_`, the primary counters `wins_` and
`visits_`, the RAVE counters `rave_wins_` and `rave_visits_`, and the cached
`log_visits_` (a C++ `float`, modelled over `ℝ`). -/
structure NStats where
  bw : Nat
  pos : Nat
  wins : Nat
  visits : Nat
  rave_wins : Nat
  rave_visits : Nat
  log_visits : ℝ

/-- A freshly allocated node after `init(bw, pos, parent)`: the member
initializers are `wins_ = 0, visits_ = 0, rave_wins_ = 10, rave_visits_ = 20`
and `log_visits_ = 0.f`; `init` only sets `bw_`, `pos_` and the parent. -/
def Node_init (bw pos : Nat) : NStats :=
  ⟨bw, pos, 0, 0, 10, 20, 0⟩

/-- The node-level part of `MCTSAgent::Node::update`: `++visits_;
log_visits_ = std::log(visits_); wins_ += (winner == bw_);`. -/
noncomputable def updateNode (winner : Nat) (n : NStats) : NStats :=
  { n with
    visits := n.visits + 1
    log_visits := Real.log ((n.visits + 1 : Nat) : ℝ)
    wins := n.wins + (if winner = n.bw then 1 else 0) }

/-- The child-level part of `MCTSAgent::Node::update` for one child: with
`rave = raves[1 - bw_]` and `cwin = (winner == 1 - bw_)`, if the rave mask has
the child's position set then `++child.rave_visits_; child.rave_wins_ += cwin;`,
else the child is untouched. -/
def updateChild (node_bw winner : Nat) (rave : Nat → Bool) (c : NStats) : NStats :=
  if rave c.pos then
    { c with
      rave_visits := c.rave_visits + 1
      rave_wins := c.rave_wins + (if winner = 1 - node_bw then 1 else 0) }
  else c

/-- `MCTSAgent::Node::update(winner, raves)`: update the node's own counters
and apply the RAVE update with mask `raves[1 - bw_]` to every child. -/
noncomputable def update (winner : Nat) (raves : Nat → Nat → Bool) (n : NStats)
    (children : List NStats) : NStats × List NStats :=
  (updateNode winner n, children.map (updateChild n.bw winner (raves (1 - n.bw))))

/-- C4: one backpropagation update increments `visits` by 1, recomputes
`log_visits` as the natural logarithm of the new visit count, increments
`wins` by 1 exactly when the winner is the node's side, and for each child
whose position is set in the rave mask of `other(node.side)` increments
`rave_visits` by 1 and `rave_wins` by 1 exactly when the winner is
`other(node.side)`, which equals the child's side; children whose position is
not in that mask are untouched. -/
theorem update_spec (winner : Nat) (raves : Nat → Nat → Bool) (n c : NStats)
    (children : List NStats) (hbw : c.bw = 1 - n.bw) :
    (update winner raves n children =
      (updateNode winner n, children.map (updateChild n.bw winner (raves (1 - n.bw))))) ∧
    (updateNode winner n).visits = n.visits + 1 ∧
    (updateNode winner n).log_visits = Real.log (((updateNode winner n).visits : Nat) : ℝ) ∧
    ((updateNode winner n).wins = n.wins + 1 ↔ winner = n.bw) ∧
    ((updateNode winner n).wins = n.wins ↔ ¬winner = n.bw) ∧
    (raves (1 - n.bw) c.pos = true →
      (updateChild n.bw winner (raves (1 - n.bw)) c).rave_visits = c.rave_visits + 1 ∧
      ((updateChild n.bw winner (raves (1 - n.bw)) c).rave_wins = c.rave_wins + 1 ↔
        (winner = 1 - n.bw ∧ winner = c.bw))) ∧
    (raves (1 - n.bw) c.pos = false →
      updateChild n.bw winner (raves (1 - n.bw)) c = c) := by
  refine ⟨rfl, rfl, rfl, ?_, ?_, ?_, ?_⟩
  · by_cases h : winner = n.bw <;> simp [updateNode, h]
  · by_cases h : winner = n.bw <;> simp [updateNode, h]
  · intro hr
    constructor
    · simp [updateChild, hr]
    · by_cases h : winner = 1 - n.bw <;> simp [updateChild, hr, h, hbw]
  · intro hr
    simp [updateChild, hr]

/-- Concrete inputs for the `update_spec` witness: a node owned by side 1 and
a fresh child at position 7 owned by side 0, with position 7 in side 0's rave
mask. -/
def witness_node : NStats := ⟨1, 81, 0, 0, 10, 20, 0⟩

def witness_raves : Nat → Nat → Bool := fun _ p => decide (p = 7)

/-- Witness for `update_spec`: side 0 wins, the node's visit counter becomes 1
and the rave-marked child's counters both advance. -/
theorem update_spec_witness :
    (updateNode 0 witness_node).visits = 1 ∧
      (updateChild witness_node.bw 0 (witness_raves (1 - witness_node.bw))
          (Node_init 0 7)).rave_visits = 21 ∧
      (updateChild witness_node.bw 0 (witness_raves (1 - witness_node.bw))
          (Node_init 0 7)).rave_wins = 11 := by
  have h := update_spec 0 witness_raves witness_node (Node_init 0 7) [] rfl
  refine ⟨h.2.1, (h.2.2.2.2.2.1 rfl).1, ?_⟩
  exact ((h.2.2.2.2.2.1 rfl).2).mpr ⟨rfl, rfl⟩

/-- C9: a freshly allocated node carries the RAVE priors `rave_visits = 20` and
`rave_wins = 10` (with `visits = wins = 0`); the node-level update only
increases `visits` and `wins` and leaves the RAVE counters unchanged; the
child-level update only increases the four counters; hence `rave_visits ≥ 20`
and `rave_wins ≥ 10` are preserved by every search operation. -/
theorem rave_prior_monotone :
    (∀ bw pos, (Node_init bw pos).rave_visits = 20 ∧ (Node_init bw pos).rave_wins = 10 ∧
      (Node_init bw pos).visits = 0 ∧ (Node_init bw pos).wins = 0) ∧
    (∀ w n, n.visits ≤ (updateNode w n).visits ∧ n.wins ≤ (updateNode w n).wins ∧
      (updateNode w n).rave_visits = n.rave_visits ∧
      (updateNode w n).rave_wins = n.rave_wins) ∧
    (∀ pbw w rave c, c.visits ≤ (updateChild pbw w rave c).visits ∧
      c.wins ≤ (updateChild pbw w rave c).wins ∧
      c.rave_visits ≤ (updateChild pbw w rave c).rave_visits ∧
      c.rave_wins ≤ (updateChild pbw w rave c).rave_wins) ∧
    (∀ pbw w rave c, 20 ≤ c.rave_visits → 20 ≤ (updateChild pbw w rave c).rave_visits) ∧
    (∀ pbw w rave c, 10 ≤ c.rave_wins → 10 ≤ (updateChild pbw w rave c).rave_wins) := by
  refine ⟨fun bw pos => ⟨rfl, rfl, rfl, rfl⟩, ?_, ?_, ?_, ?_⟩
  · intro w n
    refine ⟨Nat.le_succ _, Nat.le_add_right _ _, rfl, rfl⟩
  · intro pbw w rave c
    unfold updateChild
    by_cases h : rave c.pos <;>
      simp [h, Nat.le_succ, Nat.le_add_right]
  · intro pbw w rave c hc
    unfold updateChild
    by_cases h : rave c.pos <;> simp [h] <;> omega
  · intro pbw w rave c hc
    unfold updateChild
    by_cases h : rave c.pos <;> simp [h] <;> omega

/-- Witness for `rave_prior_monotone`: the preserved lower bounds evaluated on
a fresh node hit by one rave update. -/
theorem rave_prior_monotone_witness :
    20 ≤ (updateChild 1 0 (witness_raves 0) (Node_init 0 7)).rave_visits ∧
      10 ≤ (updateChild 1 0 (witness_raves 0) (Node_init 0 7)).rave_wins :=
  ⟨rave_prior_monotone.2.2.2.1 1 0 (witness_raves 0) (Node_init 0 7) (by decide),
   rave_prior_monotone.2.2.2.2 1 0 (witness_raves 0) (Node_init 0 7) (by decide)⟩

/-! ## Root-move selection (claim C5) -/

/-- One comparison step shared by both best-move scans: keep the incumbent on
ties, replace it only when the candidate has strictly more visits
(`std::max_element` with `p1.second < p2.second`, and
`child->visits > best_child->visits` in `player::mcts_action`). -/
def visit_step (best p : Nat × Nat) : Nat × Nat :=
  if best.2 < p.2 then p else best

/-- `std::max_element` over the `(pos, visits)` pairs of
`MCTSAgent::take_action`, in the container's iteration order: the first
element with the maximal visit count is kept. -/
def max_element (l : List (Nat × Nat)) : Option (Nat × Nat) :=
  match l with
  | [] => none
  | x :: xs => some (xs.foldl visit_step x)

/-- The move returned by `MCTSAgent::take_action` after the search:
`max_element(visits)->first`. -/
def take_action_best_move (visits : List (Nat × Nat)) : Option Nat :=
  (max_element visits).map Prod.fst

/-- C5 (counterexample): with the children presented in iteration order
`[(5, 3), (2, 3)]` — two root children tied at 3 visits — the scan returns
position 5, not the lowest position 2 the claim requires.  The iteration
order of `MCTSAgent::take_action`'s `std::unordered_map` is unspecified, so
nothing sorts the tied children by position. -/
theorem tie_break_counterexample :
    take_action_best_move [(5, 3), (2, 3)] = some 5 ∧
      take_action_best_move [(5, 3), (2, 3)] ≠ some 2 := by
  constructor
  · rfl
  · decide

theorem visit_step_cases (b p : Nat × Nat) : visit_step b p = b ∨ visit_step b p = p := by
  unfold visit_step
  by_cases h : b.2 < p.2 <;> simp [h]

theorem foldl_visit_mem : ∀ (l : List (Nat × Nat)) (b : Nat × Nat),
    l.foldl visit_step b ∈ b :: l := by
  intro l
  induction l with
  | nil => intro b; simp
  | cons c t ih =>
      intro b
      have h := ih (visit_step b c)
      rcases visit_step_cases b c with h' | h' <;>
        · rw [List.foldl_cons]
          rcases List.mem_cons.mp h with h2 | h2
          · rw [h2, h']
            simp
          · simp [h2]

theorem foldl_visit_ge : ∀ (l : List (Nat × Nat)) (b : Nat × Nat),
    ∀ y ∈ b :: l, y.2 ≤ (l.foldl visit_step b).2 := by
  intro l
  induction l with
  | nil => intro b y hy; rw [List.mem_singleton] at hy; subst hy; simp
  | cons c t ih =>
      intro b y hy
      rw [List.foldl_cons]
      have hb : b.2 ≤ (visit_step b c).2 := by
        unfold visit_step
        by_cases h : b.2 < c.2 <;> simp [h]
        omega
      have hc : c.2 ≤ (visit_step b c).2 := by
        unfold visit_step
        by_cases h : b.2 < c.2 <;> simp [h]
        omega
      rcases List.mem_cons.mp hy with h1 | h1
      · rw [h1]
        exact le_trans hb (ih (visit_step b c) _ (List.mem_cons_self _ _))
      · rcases List.mem_cons.mp h1 with h2 | h2
        · rw [h2]
          exact le_trans hc (ih (visit_step b c) _ (List.mem_cons_self _ _))
        · exact ih (visit_step b c) y (List.mem_cons_of_mem _ h2)

theorem foldl_visit_first : ∀ (l : List (Nat × Nat)) (b : Nat × Nat),
    (∀ y ∈ l, b.1 < y.1) → List.Pairwise (fun a c => a.1 < c.1) l →
    ∀ y ∈ b :: l, y.2 = (l.foldl visit_step b).2 → (l.foldl visit_step b).1 ≤ y.1 := by
  intro l
  induction l with
  | nil =>
      intro b _ _ y hy _
      rw [List.mem_singleton] at hy
      subst hy
      simp
  | cons c t ih =>
      intro b hlt hpw y hy hv
      rw [List.foldl_cons] at hv ⊢
      have hbc : b.1 < c.1 := hlt c (List.mem_cons_self _ _)
      have hct : ∀ z ∈ t, c.1 < z.1 := fun z hz => (List.pairwise_cons.mp hpw).1 z hz
      have hbt : ∀ z ∈ t, b.1 < z.1 := fun z hz => hlt z (List.mem_cons_of_mem _ hz)
      have hpt : List.Pairwise (fun a c => a.1 < c.1) t := (List.pairwise_cons.mp hpw).2
      by_cases hs : b.2 < c.2
      · have hstep : visit_step b c = c := by simp [visit_step, hs]
        rw [hstep] at hv ⊢
        have ihc := ih c hct hpt
        rcases List.mem_cons.mp hy with h1 | h1
        · subst h1
          exfalso
          have h2 : c.2 ≤ (t.foldl visit_step c).2 :=
            foldl_visit_ge t c c (List.mem_cons_self _ _)
          omega
        · exact ihc y h1 hv
      · have hstep : visit_step b c = b := by simp [visit_step, hs]
        rw [hstep] at hv ⊢
        have ihb := ih b hbt hpt
        rcases List.mem_cons.mp hy with h1 | h1
        · subst h1
          exact ihb y (List.mem_cons_self _ _) hv
        · rcases List.mem_cons.mp h1 with h2 | h2
          · subst h2
            have hb2 : b.2 ≤ (t.foldl visit_step b).2 :=
              foldl_visit_ge t b b (List.mem_cons_self _ _)
            have hb2' : b.2 = (t.foldl visit_step b).2 := by omega
            have := ihb b (List.mem_cons_self _ _) hb2'
            omega
          · exact ihb y (List.mem_cons_of_mem _ h2) hv

theorem best_child_eq_max_element : ∀ l : List (Nat × Nat),
    best_child_by_visits l = max_element l := by
  have key : ∀ (t : List (Nat × Nat)) (a : Nat × Nat),
      t.foldl
        (fun best c =>
          match best with
          | none => some c
          | some bc => if bc.2 < c.2 then some c else some bc)
        (some a) = some (t.foldl visit_step a) := by
    intro t
    induction t with
    | nil => intro a; rfl
    | cons c t ih =>
        intro a
        rw [List.foldl_cons, List.foldl_cons]
        have : (match some a with
            | none => some c
            | some bc => if bc.2 < c.2 then some c else some bc) =
            some (visit_step a c) := by
          unfold visit_step
          by_cases h : a.2 < c.2 <;> simp [h]
        rw [this, ih]
  intro l
  cases l with
  | nil => rfl
  | cons x xs =>
      unfold best_child_by_visits max_element
      rw [List.foldl_cons]
      exact key xs x

/-- C5 (amended): both best-move scans return a root child with the highest
visit count — never the highest selection score — and ties are broken by the
first such child in the container's iteration order; when the children are in
ascending position order (as in `player::mcts_action`, whose children follow
the legal-move enumeration) this is the child with the lowest position index,
while `MCTSAgent::take_action` iterates an `std::unordered_map` whose order is
unspecified. -/
theorem best_move_spec (l : List (Nat × Nat)) (x : Nat × Nat)
    (hmax : max_element l = some x)
    (hsorted : List.Pairwise (fun a c => a.1 < c.1) l) :
    x ∈ l ∧ (∀ y ∈ l, y.2 ≤ x.2) ∧ (∀ y ∈ l, y.2 = x.2 → x.1 ≤ y.1) ∧
      best_child_by_visits l = some x ∧ take_action_best_move l = some x.1 := by
  cases l with
  | nil => simp [max_element] at hmax
  | cons h t =>
      have hx : t.foldl visit_step h = x := by
        have hm := hmax
        unfold max_element at hm
        exact Option.some.inj hm
      have hlt : ∀ y ∈ t, h.1 < y.1 := fun y hy => (List.pairwise_cons.mp hsorted).1 y hy
      have hpt : List.Pairwise (fun a c => a.1 < c.1) t := (List.pairwise_cons.mp hsorted).2
      refine ⟨?_, ?_, ?_, ?_, ?_⟩
      · rw [← hx]
        exact foldl_visit_mem t h
      · intro y hy
        rw [← hx]
        exact foldl_visit_ge t h y hy
      · intro y hy hv
        rw [← hx]
        refine foldl_visit_first t h hlt hpt y hy ?_
        rw [hx]
        exact hv
      · rw [best_child_eq_max_element]
        exact hmax
      · unfold take_action_best_move
        rw [hmax]
        rfl

/-- Witness for `best_move_spec`: children in ascending position order with a
tie at 7 visits; the scan picks position 4, the lowest tied position. -/
theorem best_move_spec_witness :
    (4, 7) ∈ [(1, 2), (4, 7), (6, 7)] ∧
      take_action_best_move [(1, 2), (4, 7), (6, 7)] = some 4 := by
  have h := best_move_spec [(1, 2), (4, 7), (6, 7)] (4, 7) (by rfl) (by decide)
  exact ⟨h.1, h.2.2.2.2⟩

/-! ## Safety of `select_child` (claim C10) -/

/-- The score `MCTSAgent::Node::select_child` computes for a child, as a
function of the child's statistics and the parent's cached `log_visits_`. -/
noncomputable def child_score (log_visits : ℝ) (c : NStats) : ℝ :=
  select_child_score log_visits (c.rave_wins : ℝ) (c.wins : ℝ) (c.visits : ℝ)
    (c.rave_visits : ℝ)

/-- One step of the fuzzy running maximum of `select_child`:
`max_score = (score - max_score > 0.0001f) ? score : max_score`. -/
noncomputable def fuzzy_step (m s : ℝ) : ℝ :=
  if s - m > 0.0001 then s else m

/-- The running maximum of `select_child`, started from `-1.f`. -/
noncomputable def running_max (scores : List ℝ) : ℝ :=
  scores.foldl fuzzy_step (-1)

/-- The children `select_child` marks in `max_children`:
those with `uct_score_ - max_score > -0.0001f`. -/
noncomputable def select_candidates (lv : ℝ) (children : List NStats) : List NStats :=
  children.filter
    (fun c => decide (child_score lv c - running_max (children.map (child_score lv)) > -0.0001))

/-- `MCTSAgent::Node::select_child`: pick a marked child via
`board::random_move_from_board(max_children, rng)`.  That helper lives in the
missing `board.h`; per the specification it returns a uniformly random set bit
of a non-empty set, modelled as indexing the marked children by an arbitrary
PRNG draw reduced modulo their number. -/
noncomputable def select_child_model (rng_idx : Nat) (lv : ℝ) (children : List NStats) :
    Option NStats :=
  (select_candidates lv children).get? (rng_idx % (select_candidates lv children).length)

theorem fuzzy_step_cases (m s : ℝ) : fuzzy_step m s = m ∨ fuzzy_step m s = s := by
  unfold fuzzy_step
  by_cases h : s - m > 0.0001 <;> simp [h]

theorem foldl_fuzzy_mem : ∀ (l : List ℝ) (m : ℝ), l.foldl fuzzy_step m ∈ m :: l := by
  intro l
  induction l with
  | nil => intro m; simp
  | cons s t ih =>
      intro m
      rw [List.foldl_cons]
      have h := ih (fuzzy_step m s)
      rcases fuzzy_step_cases m s with h' | h' <;>
        · rcases List.mem_cons.mp h with h2 | h2
          · rw [h2, h']
            simp
          · simp [h2]

theorem child_score_nonneg (lv : ℝ) (c : NStats) : 0 ≤ child_score lv c := by
  unfold child_score select_child_score
  apply div_nonneg
  · have h1 : (0 : ℝ) ≤ Real.sqrt (lv * (c.visits : ℝ)) := Real.sqrt_nonneg _
    have h2 : (0 : ℝ) ≤ (c.rave_wins : ℝ) := Nat.cast_nonneg _
    have h3 : (0 : ℝ) ≤ (c.wins : ℝ) := Nat.cast_nonneg _
    nlinarith
  · have h4 : (0 : ℝ) ≤ (c.rave_visits : ℝ) := Nat.cast_nonneg _
    have h5 : (0 : ℝ) ≤ (c.visits : ℝ) := Nat.cast_nonneg _
    linarith

/-- C10: on a node with children satisfying the RAVE-prior invariant
`rave_visits ≥ 20`, every child's score denominator `rave_visits + visits` is
at least 20 — in particular nonzero, so the score computation never divides by
zero — and `select_child` returns one of the node's children: the fuzzy
maximum is one of the scores, so the candidate set is non-empty and the
PRNG-indexed pick succeeds. -/
theorem select_child_safe (lv : ℝ) (children : List NStats) (rng_idx : Nat)
    (hne : children ≠ [])
    (hinv : ∀ c ∈ children, 20 ≤ c.rave_visits) :
    (∀ c ∈ children, 20 ≤ c.rave_visits + c.visits ∧
      ((c.rave_visits : ℝ) + (c.visits : ℝ)) ≠ 0) ∧
    ∃ c, select_child_model rng_idx lv children = some c ∧ c ∈ children := by
  constructor
  · intro c hc
    have h20 := hinv c hc
    constructor
    · omega
    · have h20' : (20 : ℝ) ≤ (c.rave_visits : ℝ) := by exact_mod_cast h20
      have hv : (0 : ℝ) ≤ (c.visits : ℝ) := Nat.cast_nonneg _
      have : (0 : ℝ) < (c.rave_visits : ℝ) + (c.visits : ℝ) := by linarith
      exact this.ne'
  · cases children with
    | nil => exact absurd rfl hne
    | cons c1 rest =>
        have hs0 : (0 : ℝ) ≤ child_score lv c1 := child_score_nonneg lv c1
        have hcond : child_score lv c1 - (-1) > 0.0001 := by linarith
        have hstep0 : fuzzy_step (-1) (child_score lv c1) = child_score lv c1 := by
          unfold fuzzy_step
          rw [if_pos hcond]
        have hM : running_max ((c1 :: rest).map (child_score lv)) ∈
            (c1 :: rest).map (child_score lv) := by
          unfold running_max
          rw [List.map_cons, List.foldl_cons, hstep0]
          exact foldl_fuzzy_mem (rest.map (child_score lv)) (child_score lv c1)
        obtain ⟨cmax, hcmem, hceq⟩ := List.mem_map.mp hM
        have hfilter : cmax ∈ select_candidates lv (c1 :: rest) := by
          unfold select_candidates
          rw [List.mem_filter]
          refine ⟨hcmem, ?_⟩
          simp only [decide_eq_true_eq]
          rw [hceq, sub_self]
          norm_num
        have hlen : 0 < (select_candidates lv (c1 :: rest)).length :=
          List.length_pos.mpr (List.ne_nil_of_mem hfilter)
        have hmod : rng_idx % (select_candidates lv (c1 :: rest)).length <
            (select_candidates lv (c1 :: rest)).length := Nat.mod_lt _ hlen
        refine ⟨(select_candidates lv (c1 :: rest)).get
          ⟨rng_idx % (select_candidates lv (c1 :: rest)).length, hmod⟩, ?_, ?_⟩
        · unfold select_child_model
          exact List.get?_eq_get hmod
        · have hmem := List.get_mem (select_candidates lv (c1 :: rest))
            (rng_idx % (select_candidates lv (c1 :: rest)).length) hmod
          unfold select_candidates at hmem
          exact List.mem_of_mem_filter hmem

/-- Witness for `select_child_safe`: a node with one fresh child (RAVE priors
`20`/`10`, zero visits) and `log_visits = 0`; the selection succeeds and
returns that child. -/
theorem select_child_safe_witness :
    ∃ c, select_child_model 0 0 [Node_init 0 3] = some c ∧ c ∈ [Node_init 0 3] :=
  (select_child_safe 0 [Node_init 0 3] 0 (by simp)
    (by intro c hc; rw [List.mem_singleton] at hc; rw [hc]; decide)).2

end NoGo
